import Mathlib

/-!
Verification of the Golden Copy Manager clipboard-history core
(`src/Golden_Copy_Manager.py`), shallowly embedded in Lean.

History entries are the dictionaries `{"text", "fold", "ts", "pinned"}`
built by `_add_to_history`, `toggle_pin_selected` and `_load_history`;
the history is the Python list `self.history`.  Timestamps
(`time.time()` floats) are modelled as integers: the code only ever
stores, copies and subtracts them.
-/

namespace GoldenCopy

/-- `MAX_ITEMS = 50` (source line 36): cap on the unpinned section. -/
def MAX_ITEMS : Nat := 50

/-- `MAX_SEARCH_CHARS = 200` (source line 39): cap on the search query length. -/
def MAX_SEARCH_CHARS : Nat := 200

/-- Python `str.strip()`: drop leading and trailing whitespace. -/
def pyStrip (s : String) : String :=
  String.mk (((s.data.dropWhile Char.isWhitespace).reverse.dropWhile Char.isWhitespace).reverse)

/-- Python `str.casefold()`, modelled as per-character lowercasing (they
agree on ASCII; no property below depends on the folded value). -/
def pyCasefold (s : String) : String :=
  String.mk (s.data.map Char.toLower)

/-- One history record `{"text": ..., "fold": ..., "ts": ..., "pinned": ...}`. -/
structure HistEntry where
  text : String
  fold : String
  ts : Int
  pinned : Bool
deriving DecidableEq, Repr

/-- The texts of a history, in order. -/
def texts (l : List HistEntry) : List String := l.map (fun e => e.text)

/-- Python `list.insert(i, x)` for a nonnegative index
(inserts before index `i`; appends when `i` is past the end). -/
def pyInsert : Nat → HistEntry → List HistEntry → List HistEntry
  | 0, x, l => x :: l
  | _ + 1, x, [] => [x]
  | i + 1, x, h :: t => h :: pyInsert i x t

/-- `sum(1 for h in self.history if h.get("pinned"))`. -/
def countPinned (l : List HistEntry) : Nat :=
  (l.filter (fun e => e.pinned)).length

/-- Number of unpinned entries. -/
def unpinnedCount (l : List HistEntry) : Nat :=
  (l.filter (fun e => !e.pinned)).length

/-- `ClipboardManager._trim_history` (source lines 970-978): keep all
pinned entries, cap the unpinned section at `MAX_ITEMS`, and rebuild the
list as pinned followed by unpinned. -/
def trimHistory (history : List HistEntry) : List HistEntry :=
  let pinned := history.filter (fun e => e.pinned)
  let unpinned := history.filter (fun e => !e.pinned)
  let unpinned2 := if MAX_ITEMS < unpinned.length then unpinned.take MAX_ITEMS else unpinned
  pinned ++ unpinned2

/-- The `for i, h in enumerate(self.history)` loop of `_add_to_history`:
pop the first entry whose text equals `item` (remembering its pinned
flag); `(false, unchanged)` when no entry matches. -/
def findPop (item : String) : List HistEntry → Bool × List HistEntry
  | [] => (false, [])
  | h :: t =>
    if h.text = item then (h.pinned, t)
    else
      let r := findPop item t
      (r.1, h :: r.2)

/-- `ClipboardManager._add_to_history` (source lines 980-1001), without
the UI refresh and auto-save side effects. -/
def addToHistory (item : String) (now : Int) (history : List HistEntry) : List HistEntry :=
  let r := findPop item history
  let pinned := r.1
  let h2 := r.2
  let entry : HistEntry := ⟨item, pyCasefold item, now, pinned⟩
  let h3 := if pinned then entry :: h2 else pyInsert (countPinned h2) entry h2
  trimHistory h3

/-- A sequence of captures: `_add_to_history` applied for each
`(text, timestamp)` pair in order. -/
def captureSeq (ops : List (String × Int)) (history : List HistEntry) : List HistEntry :=
  ops.foldl (fun h p => addToHistory p.1 p.2 h) history

/-- `ClipboardManager.toggle_pin_selected` (source lines 1063-1086) applied
to the selected item `item`, without the UI/status/auto-save side effects. -/
def togglePinSelected (item : HistEntry) (history : List HistEntry) : List HistEntry :=
  let txt := item.text
  let pinned := !item.pinned
  let ts := item.ts
  let h2 := history.filter (fun h => ¬ h.text = txt)
  let entry : HistEntry := ⟨txt, pyCasefold txt, ts, pinned⟩
  let h3 := if pinned then entry :: h2 else pyInsert (countPinned h2) entry h2
  trimHistory h3

/-- `ClipboardManager._poll_clipboard` (source lines 947-961) for one tick.
`clip` is the result of `_get_clipboard_text` (`none` when the clipboard
is unreadable or holds a non-string).  Returns the new `last_clip`, the
new history, and the captured text (`some` exactly when
`_add_to_history` was invoked). -/
def pollClipboard (paused : Bool) (lastClip : String) (history : List HistEntry)
    (clip : Option String) (now : Int) : String × List HistEntry × Option String :=
  match clip with
  | none => (lastClip, history, none)
  | some text =>
    let normalized := pyStrip text
    if normalized = "" then (lastClip, history, none)
    else if paused then (normalized, history, none)
    else if ¬ normalized = lastClip then
      (normalized, addToHistory normalized now history, some normalized)
    else (lastClip, history, none)

/-- A persisted dictionary record as read by `_load_history`: each field
is `none` when absent (`d.get` defaults apply). -/
structure PRec where
  text : Option String
  ts : Option Int
  pinned : Option Bool
deriving DecidableEq, Repr

/-- One element of the persisted JSON list: a dictionary, a plain string,
or any other JSON value. -/
inductive PElem where
  | dict (r : PRec)
  | str (s : String)
  | other
deriving DecidableEq, Repr

/-- One iteration of the new-format loop of `_load_history` (source lines
1124-1133): non-dictionary elements raise inside the `try` and are
skipped; a record whose text is empty after stripping is skipped. -/
def parseDictElem (now : Int) (e : PElem) : Option HistEntry :=
  match e with
  | PElem.dict r =>
    let txt := pyStrip (r.text.getD "")
    if txt = "" then none
    else some ⟨txt, pyCasefold txt, r.ts.getD now, r.pinned.getD false⟩
  | _ => none

/-- The legacy-format loop of `_load_history` (source lines 1135-1141):
`i` is the `enumerate` index; non-strings are skipped, strings empty
after stripping are skipped, kept strings get timestamp `now - i` and
`pinned = False`. -/
def parseLegacy (now : Int) : Int → List PElem → List HistEntry
  | _, [] => []
  | i, e :: rest =>
    match e with
    | PElem.str t =>
      let txt := pyStrip t
      if txt = "" then parseLegacy now (i + 1) rest
      else ⟨txt, pyCasefold txt, now - i, false⟩ :: parseLegacy now (i + 1) rest
    | _ => parseLegacy now (i + 1) rest

/-- The de-duplication loop of `_load_history` (source lines 1144-1151):
drop entries whose text is empty or already seen, keeping the first
occurrence of each text. -/
def dedupKeepFirst (seen : List String) : List HistEntry → List HistEntry
  | [] => []
  | h :: t =>
    if h.text = "" ∨ h.text ∈ seen then dedupKeepFirst seen t
    else h :: dedupKeepFirst (h.text :: seen) t

/-- `ClipboardManager._load_history` (source lines 1111-1158) on
successfully parsed JSON `data`: the new format is taken when the list
is nonempty and starts with a dictionary, otherwise the legacy format;
the result is de-duplicated and trimmed. -/
def loadHistory (data : List PElem) (now : Int) : List HistEntry :=
  let items :=
    match data with
    | PElem.dict _ :: _ => data.filterMap (parseDictElem now)
    | _ => parseLegacy now 0 data
  trimHistory (dedupKeepFirst [] items)

/-- `ClipboardManager._validate_search` (source lines 911-917): returns
whether the proposed text is accepted, together with the warning message
placed in `search_warn_var`. -/
def validateSearch (proposed : String) : Bool × String :=
  if proposed.length ≤ MAX_SEARCH_CHARS then (true, "")
  else (false, "Search limited to " ++ toString MAX_SEARCH_CHARS ++ " characters")

/-- The Tk `validate="key"` contract at the search entry (source lines
723-724): a proposed edit replaces the entry content only when the
registered validator accepts it, otherwise the entry keeps its current
content. -/
def applySearchEdit (current proposed : String) : String :=
  if (validateSearch proposed).1 then proposed else current

/-- Events the hotkey listener puts on the controller queue. -/
inductive HkEvent where
  | info (msg : String)
  | error (msg : String)
  | hotkey
deriving DecidableEq, Repr

/-- State of the Windows hotkey listener: what is currently registered
with the OS under `self._hotkey_id`, and the `_mods`/`_vk`/`_display`
fields. -/
structure HkState where
  registered : Option (Nat × Nat)
  mods : Nat
  vk : Nat
  display : String
deriving DecidableEq, Repr

/-- The `WM_APP_SET_HOTKEY` branch of `wndproc` in
`WindowsHotkeyListener._run` (source lines 344-361).  `pending` holds
`(_pending_mods, _pending_vk, _pending_display)`; `okNew` and
`okRollback` are the outcomes of the two potential `RegisterHotKey` OS
calls (`UnregisterHotKey` always clears the registration).  Returns the
new listener state and the events put on the queue. -/
def setHotkeyMsg (st : HkState) (pending : Option (Nat × Nat × String))
    (okNew okRollback : Bool) : HkState × List HkEvent :=
  match pending with
  | none => (st, [])
  | some (newMods, newVk, newDisp) =>
    if newDisp = "" then (st, [])
    else if okNew then
      (⟨some (newMods, newVk), newMods, newVk, newDisp⟩,
       [HkEvent.info ("Hotkey set to: " ++ newDisp)])
    else if okRollback then
      (⟨some (st.mods, st.vk), st.mods, st.vk, st.display⟩,
       [HkEvent.error ("Hotkey \x27" ++ newDisp ++ "\x27 unavailable (already used). Kept: " ++ st.display)])
    else
      (⟨none, st.mods, st.vk, st.display⟩,
       [HkEvent.error "Hotkey registration failed and rollback failed."])

/-- A concrete pinned entry, used to exercise the eviction behaviour on
a full history. -/
def samplePinned : HistEntry := ⟨"p", "p", 100, true⟩

/-- A concrete unpinned section of exactly `MAX_ITEMS` distinct entries,
newest first. -/
def sampleUnpinned : List HistEntry :=
  (List.range MAX_ITEMS).map (fun i => ⟨"u" ++ toString i, "u" ++ toString i, -(i : Int), false⟩)

/-- The oldest (tail) entry of `sampleUnpinned`. -/
def sampleLast : HistEntry := ⟨"u49", "u49", -(49 : Int), false⟩

/-! ### Basic facts about the embedded operations -/

theorem texts_nil : texts [] = [] := rfl

theorem texts_cons (e : HistEntry) (l : List HistEntry) :
    texts (e :: l) = e.text :: texts l := rfl

theorem texts_append (a b : List HistEntry) :
    texts (a ++ b) = texts a ++ texts b := List.map_append _ a b

/-- `_trim_history` in closed form: pinned entries first, then the first
`MAX_ITEMS` unpinned entries. -/
theorem trimHistory_eq (l : List HistEntry) :
    trimHistory l =
      l.filter (fun e => e.pinned) ++ (l.filter (fun e => !e.pinned)).take MAX_ITEMS := by
  simp only [trimHistory]
  split
  · rfl
  · rw [List.take_of_length_le (by omega)]

theorem filter_pinned_trim (l : List HistEntry) :
    (trimHistory l).filter (fun e => e.pinned) = l.filter (fun e => e.pinned) := by
  rw [trimHistory_eq, List.filter_append]
  have h1 : (l.filter (fun e => e.pinned)).filter (fun e => e.pinned) =
      l.filter (fun e => e.pinned) := by
    apply List.filter_eq_self.mpr
    intro a ha
    exact (List.mem_filter.mp ha).2
  have h2 : ((l.filter (fun e => !e.pinned)).take MAX_ITEMS).filter (fun e => e.pinned) = [] := by
    apply List.filter_eq_nil_iff.mpr
    intro a ha
    have hm := (List.mem_filter.mp (List.take_subset _ _ ha)).2
    simp only [Bool.not_eq_true'] at hm
    simp [hm]
  rw [h1, h2, List.append_nil]

theorem filter_unpinned_trim (l : List HistEntry) :
    (trimHistory l).filter (fun e => !e.pinned) =
      (l.filter (fun e => !e.pinned)).take MAX_ITEMS := by
  rw [trimHistory_eq, List.filter_append]
  have h1 : (l.filter (fun e => e.pinned)).filter (fun e => !e.pinned) = [] := by
    apply List.filter_eq_nil_iff.mpr
    intro a ha
    have hm := (List.mem_filter.mp ha).2
    simp [hm]
  have h2 : ((l.filter (fun e => !e.pinned)).take MAX_ITEMS).filter (fun e => !e.pinned) =
      (l.filter (fun e => !e.pinned)).take MAX_ITEMS := by
    apply List.filter_eq_self.mpr
    intro a ha
    exact (List.mem_filter.mp (List.take_subset _ _ ha)).2
  rw [h1, h2, List.nil_append]

theorem trim_subset (l : List HistEntry) : ∀ e ∈ trimHistory l, e ∈ l := by
  intro e he
  rw [trimHistory_eq] at he
  rcases List.mem_append.mp he with h1 | h1
  · exact (List.mem_filter.mp h1).1
  · exact (List.mem_filter.mp (List.take_subset _ _ h1)).1

/-- The texts of a trimmed history form a sub-permutation of the texts of
the original history. -/
theorem texts_trim_subperm (l : List HistEntry) :
    (texts (trimHistory l)).Subperm (texts l) := by
  have hsub : (trimHistory l).Sublist
      (l.filter (fun e => e.pinned) ++ l.filter (fun e => !e.pinned)) := by
    rw [trimHistory_eq]
    exact List.Sublist.append_left (List.take_sublist _ _) _
  have hperm := List.filter_append_perm (fun e => e.pinned) l
  exact ((hsub.map (fun e => e.text)).subperm).trans
    ((hperm.map (fun e => e.text)).subperm)

theorem nodup_texts_trim {l : List HistEntry}
    (hnd : (texts l).Nodup) : (texts (trimHistory l)).Nodup := by
  obtain ⟨m, hperm, hsub⟩ := texts_trim_subperm l
  exact hperm.nodup_iff.mp (hsub.nodup hnd)

theorem pyInsert_perm (i : Nat) (x : HistEntry) (l : List HistEntry) :
    (pyInsert i x l).Perm (x :: l) := by
  induction l generalizing i with
  | nil => cases i <;> simp [pyInsert]
  | cons h t ih =>
    cases i with
    | zero => simp [pyInsert]
    | succ j =>
      simp only [pyInsert]
      exact ((ih j).cons h).trans (List.Perm.swap x h t)

theorem pyInsert_append (a b : List HistEntry) (x : HistEntry) :
    pyInsert a.length x (a ++ b) = a ++ x :: b := by
  induction a with
  | nil => rfl
  | cons h t ih => simp [pyInsert, ih]

theorem findPop_sublist (item : String) (l : List HistEntry) :
    (findPop item l).2.Sublist l := by
  induction l with
  | nil => simp [findPop]
  | cons h t ih =>
    simp only [findPop]
    split
    · exact List.sublist_cons_self h t
    · exact ih.cons₂ h

theorem findPop_not_mem (item : String) (l : List HistEntry)
    (hnd : (texts l).Nodup) : ¬ item ∈ texts (findPop item l).2 := by
  induction l with
  | nil => simp [findPop, texts_nil]
  | cons h t ih =>
    rw [texts_cons, List.nodup_cons] at hnd
    simp only [findPop]
    split
    next heq =>
      intro hmem
      exact hnd.1 (heq ▸ hmem)
    next hne =>
      intro hmem
      rw [texts_cons, List.mem_cons] at hmem
      rcases hmem with h1 | h1
      · exact hne h1.symm
      · exact ih hnd.2 h1

theorem findPop_pinned (item : String) (l : List HistEntry) (e : HistEntry)
    (hnd : (texts l).Nodup) (he : e ∈ l) (ht : e.text = item) :
    (findPop item l).1 = e.pinned := by
  induction l with
  | nil => cases he
  | cons h t ih =>
    rw [texts_cons, List.nodup_cons] at hnd
    simp only [findPop]
    split
    next heq =>
      rcases List.mem_cons.mp he with h1 | h1
      · rw [h1]
      · exact absurd (by rw [heq, ← ht]; exact List.mem_map_of_mem _ h1) hnd.1
    next hne =>
      rcases List.mem_cons.mp he with h1 | h1
      · exact absurd (h1 ▸ ht) hne
      · exact ih hnd.2 h1

/-- `_add_to_history` in closed form. -/
theorem addToHistory_eq (item : String) (now : Int) (l : List HistEntry) :
    addToHistory item now l =
      trimHistory (if (findPop item l).1
        then (⟨item, pyCasefold item, now, (findPop item l).1⟩ : HistEntry) :: (findPop item l).2
        else pyInsert (countPinned (findPop item l).2)
          ⟨item, pyCasefold item, now, (findPop item l).1⟩ (findPop item l).2) := rfl

/-- `toggle_pin_selected` in closed form. -/
theorem togglePinSelected_eq (item : HistEntry) (l : List HistEntry) :
    togglePinSelected item l =
      trimHistory (if !item.pinned
        then (⟨item.text, pyCasefold item.text, item.ts, !item.pinned⟩ : HistEntry) ::
          l.filter (fun h => ¬ h.text = item.text)
        else pyInsert (countPinned (l.filter (fun h => ¬ h.text = item.text)))
          ⟨item.text, pyCasefold item.text, item.ts, !item.pinned⟩
          (l.filter (fun h => ¬ h.text = item.text))) := rfl

theorem nodup_texts_add (item : String) (now : Int) (l : List HistEntry)
    (hnd : (texts l).Nodup) : (texts (addToHistory item now l)).Nodup := by
  have hsub : (findPop item l).2.Sublist l := findPop_sublist item l
  have hnd0 : (List.map (fun e => e.text) l).Nodup := hnd
  have hnd2 : (texts (findPop item l).2).Nodup := by
    show (List.map (fun e => e.text) (findPop item l).2).Nodup
    exact ((hsub.map (fun e => e.text)).nodup) hnd0
  have hmem : ¬ item ∈ texts (findPop item l).2 := findPop_not_mem item l hnd
  rw [addToHistory_eq]
  apply nodup_texts_trim
  split
  · rw [texts_cons, List.nodup_cons]
    exact ⟨hmem, hnd2⟩
  · have hperm := (pyInsert_perm (countPinned (findPop item l).2)
      (⟨item, pyCasefold item, now, (findPop item l).1⟩ : HistEntry) (findPop item l).2).map
      (fun e => e.text)
    apply hperm.nodup_iff.mpr
    rw [List.map_cons]
    exact List.nodup_cons.mpr ⟨hmem, hnd2⟩

/-! ### Pinned-prefix partitions -/

theorem countPinned_partition (a b : List HistEntry)
    (ha : ∀ x ∈ a, x.pinned = true) (hb : ∀ x ∈ b, x.pinned = false) :
    countPinned (a ++ b) = a.length := by
  unfold countPinned
  rw [List.filter_append, List.filter_eq_self.mpr ha,
    List.filter_eq_nil_iff.mpr (by intro x hx; simp [hb x hx])]
  simp

theorem trim_partition_insert (a b : List HistEntry) (x : HistEntry)
    (ha : ∀ e ∈ a, e.pinned = true) (hb : ∀ e ∈ b, e.pinned = false)
    (hx : x.pinned = false) :
    trimHistory (a ++ x :: b) = a ++ (x :: b).take MAX_ITEMS := by
  rw [trimHistory_eq]
  have hcons : ∀ e ∈ x :: b, e.pinned = false := by
    intro e he
    rcases List.mem_cons.mp he with h1 | h1
    · rw [h1]; exact hx
    · exact hb e h1
  congr 1
  · rw [List.filter_append, List.filter_eq_self.mpr ha,
      List.filter_eq_nil_iff.mpr (by intro e he; simp [hcons e he]), List.append_nil]
  · rw [List.filter_append,
      List.filter_eq_nil_iff.mpr (by intro e he; simp [ha e he]),
      List.filter_eq_self.mpr (by intro e he; simp [hcons e he]), List.nil_append]

/-- Every trimmed history splits into a pinned prefix followed by an
unpinned suffix. -/
theorem trim_decomp (l : List HistEntry) :
    ∃ a b, trimHistory l = a ++ b
      ∧ (∀ e ∈ a, e.pinned = true) ∧ (∀ e ∈ b, e.pinned = false) := by
  refine ⟨l.filter (fun e => e.pinned), (l.filter (fun e => !e.pinned)).take MAX_ITEMS,
    trimHistory_eq l, ?_, ?_⟩
  · intro e he
    exact (List.mem_filter.mp he).2
  · intro e he
    have := (List.mem_filter.mp (List.take_subset _ _ he)).2
    simpa using this

/-- Inserting an unpinned entry at index `countPinned` into a
pinned-prefix partitioned list places it at the front of the unpinned
block, where trimming keeps it. -/
theorem unpin_insert_mem (a b : List HistEntry) (x : HistEntry)
    (ha : ∀ e ∈ a, e.pinned = true) (hb : ∀ e ∈ b, e.pinned = false)
    (hx : x.pinned = false) :
    x ∈ (trimHistory (pyInsert (countPinned (a ++ b)) x (a ++ b))).filter
      (fun e => !e.pinned) := by
  rw [countPinned_partition a b ha hb, pyInsert_append,
    trim_partition_insert a b x ha hb hx, List.filter_append,
    List.filter_eq_nil_iff.mpr (by intro e he; simp [ha e he]), List.nil_append]
  have h50 : MAX_ITEMS = 49 + 1 := rfl
  rw [h50, List.take_succ_cons]
  exact List.mem_filter.mpr ⟨List.mem_cons_self _ _, by simp [hx]⟩

theorem trim_all_unpinned (l : List HistEntry)
    (hl : ∀ e ∈ l, e.pinned = false) :
    trimHistory l = l.take MAX_ITEMS := by
  rw [trimHistory_eq,
    List.filter_eq_nil_iff.mpr (by intro e he; simp [hl e he]),
    List.filter_eq_self.mpr (by intro e he; simp [hl e he]), List.nil_append]

/-! ### Facts about `_load_history` -/

theorem dedup_sublist (seen : List String) (items : List HistEntry) :
    (dedupKeepFirst seen items).Sublist items := by
  induction items generalizing seen with
  | nil => simp [dedupKeepFirst]
  | cons h t ih =>
    simp only [dedupKeepFirst]
    split
    · exact (ih seen).trans (List.sublist_cons_self h t)
    · exact (ih (h.text :: seen)).cons₂ h

theorem dedup_not_seen (seen : List String) (items : List HistEntry) :
    ∀ e ∈ dedupKeepFirst seen items, ¬ e.text ∈ seen ∧ ¬ e.text = "" := by
  induction items generalizing seen with
  | nil => simp [dedupKeepFirst]
  | cons h t ih =>
    simp only [dedupKeepFirst]
    split
    next hdrop =>
      exact ih seen
    next hkeep =>
      intro e he
      rcases List.mem_cons.mp he with h1 | h1
      · push_neg at hkeep
        rw [h1]
        exact ⟨hkeep.2, hkeep.1⟩
      · have := ih (h.text :: seen) e h1
        exact ⟨fun hs => this.1 (List.mem_cons_of_mem _ hs), this.2⟩

theorem dedup_nodup (seen : List String) (items : List HistEntry) :
    (texts (dedupKeepFirst seen items)).Nodup := by
  induction items generalizing seen with
  | nil => simp [dedupKeepFirst, texts_nil]
  | cons h t ih =>
    simp only [dedupKeepFirst]
    split
    · exact ih seen
    · rw [texts_cons, List.nodup_cons]
      refine ⟨?_, ih (h.text :: seen)⟩
      intro hmem
      obtain ⟨e, he, hetext⟩ := List.mem_map.mp hmem
      exact (dedup_not_seen (h.text :: seen) t e he).1 (hetext ▸ List.mem_cons_self _ _)

/-- De-duplication keeps the first occurrence of each (non-empty,
not-yet-seen) text: lookups by text agree before and after. -/
theorem dedup_find (t : String) (items : List HistEntry) (seen : List String)
    (ht : ¬ t = "") (hs : ¬ t ∈ seen) :
    (dedupKeepFirst seen items).find? (fun e => e.text == t) =
      items.find? (fun e => e.text == t) := by
  induction items generalizing seen with
  | nil => rfl
  | cons h rest ih =>
    simp only [dedupKeepFirst]
    split
    next hdrop =>
      have hne : ¬ h.text = t := by
        intro he
        rcases hdrop with h1 | h1
        · exact ht (he ▸ h1)
        · exact hs (he ▸ h1)
      rw [ih seen hs, List.find?_cons_of_neg _ (by simpa using hne)]
    next hkeep =>
      by_cases he : h.text = t
      · rw [List.find?_cons_of_pos _ (by simpa using he),
          List.find?_cons_of_pos _ (by simpa using he)]
      · rw [List.find?_cons_of_neg _ (by simpa using he),
          List.find?_cons_of_neg _ (by simpa using he)]
        refine ih (h.text :: seen) ?_
        intro hmem
        rcases List.mem_cons.mp hmem with h1 | h1
        · exact he h1.symm
        · exact hs h1

theorem parseLegacy_pinned (now : Int) (i : Int) (data : List PElem) :
    ∀ e ∈ parseLegacy now i data, e.pinned = false := by
  induction data generalizing i with
  | nil => simp [parseLegacy]
  | cons d rest ih =>
    intro e he
    cases d with
    | dict r => exact ih (i + 1) e he
    | other => exact ih (i + 1) e he
    | str s =>
      simp only [parseLegacy] at he
      split at he
      · exact ih (i + 1) e he
      · rcases List.mem_cons.mp he with h1 | h1
        · rw [h1]
        · exact ih (i + 1) e h1

theorem parseLegacy_ts_le (now : Int) (i : Int) (data : List PElem) :
    ∀ e ∈ parseLegacy now i data, e.ts ≤ now - i := by
  induction data generalizing i with
  | nil => simp [parseLegacy]
  | cons d rest ih =>
    intro e he
    have step : ∀ e ∈ parseLegacy now (i + 1) rest, e.ts ≤ now - i := by
      intro x hx
      have := ih (i + 1) x hx
      omega
    cases d with
    | dict r => exact step e he
    | other => exact step e he
    | str s =>
      simp only [parseLegacy] at he
      split at he
      · exact step e he
      · rcases List.mem_cons.mp he with h1 | h1
        · rw [h1]
        · exact step e h1

/-- Legacy-format entries carry strictly descending timestamps:
earlier list positions are newer. -/
theorem parseLegacy_sorted (now : Int) (i : Int) (data : List PElem) :
    (parseLegacy now i data).Pairwise (fun x y => y.ts < x.ts) := by
  induction data generalizing i with
  | nil => simp [parseLegacy]
  | cons d rest ih =>
    cases d with
    | dict r => exact ih (i + 1)
    | other => exact ih (i + 1)
    | str s =>
      simp only [parseLegacy]
      split
      · exact ih (i + 1)
      · refine List.pairwise_cons.mpr ⟨?_, ih (i + 1)⟩
        intro e he
        have := parseLegacy_ts_le now (i + 1) rest e he
        show e.ts < now - i
        omega

/-- `_load_history` on a legacy plain list of strings takes the legacy
branch. -/
theorem loadHistory_legacy (ss : List String) (now : Int) :
    loadHistory (ss.map PElem.str) now =
      trimHistory (dedupKeepFirst [] (parseLegacy now 0 (ss.map PElem.str))) := by
  cases ss <;> rfl

/-! ### Claim theorems -/

/-- C1: for every sequence of capture operations (`_add_to_history`)
applied to a history with no duplicate texts, the resulting history
contains at most one entry per distinct text value. -/
theorem capture_no_duplicates (h : List HistEntry) (ops : List (String × Int))
    (hnd : (texts h).Nodup) : (texts (captureSeq ops h)).Nodup := by
  induction ops generalizing h with
  | nil => exact hnd
  | cons op rest ih =>
    simp only [captureSeq, List.foldl_cons]
    exact ih _ (nodup_texts_add op.1 op.2 h hnd)

theorem capture_no_duplicates_witness :
    (texts (captureSeq [("a", 0), ("b", 1), ("a", 2)] [])).Nodup :=
  capture_no_duplicates [] [("a", 0), ("b", 1), ("a", 2)] (by decide)

/-- C2: eviction (`_trim_history`, applied after every capture) never
removes a pinned entry, keeps exactly the first `MAX_ITEMS` unpinned
entries (dropping the oldest tail ones), and consequently the unpinned
count is at most `MAX_ITEMS` after every capture and after every
nonempty sequence of captures. -/
theorem eviction_spec :
    (∀ h, (trimHistory h).filter (fun e => e.pinned) = h.filter (fun e => e.pinned))
    ∧ (∀ h, (trimHistory h).filter (fun e => !e.pinned) =
        (h.filter (fun e => !e.pinned)).take MAX_ITEMS)
    ∧ (∀ h item now, unpinnedCount (addToHistory item now h) ≤ MAX_ITEMS)
    ∧ (∀ h ops, ¬ ops = [] → unpinnedCount (captureSeq ops h) ≤ MAX_ITEMS) := by
  have hadd : ∀ (h : List HistEntry) (item : String) (now : Int),
      unpinnedCount (addToHistory item now h) ≤ MAX_ITEMS := by
    intro h item now
    rw [addToHistory_eq]
    show (List.filter (fun e => !e.pinned) (trimHistory _)).length ≤ MAX_ITEMS
    rw [filter_unpinned_trim, List.length_take]
    omega
  have hseq : ∀ (ops : List (String × Int)) (h : List HistEntry),
      unpinnedCount h ≤ MAX_ITEMS → unpinnedCount (captureSeq ops h) ≤ MAX_ITEMS := by
    intro ops
    induction ops with
    | nil => intro h hh; exact hh
    | cons op rest ih =>
      intro h hh
      simp only [captureSeq, List.foldl_cons]
      exact ih _ (hadd h op.1 op.2)
  refine ⟨filter_pinned_trim, filter_unpinned_trim, hadd, ?_⟩
  intro h ops hne
  cases ops with
  | nil => exact absurd rfl hne
  | cons op rest =>
    simp only [captureSeq, List.foldl_cons]
    exact hseq rest _ (hadd h op.1 op.2)

theorem eviction_spec_witness :
    unpinnedCount (captureSeq [("a", 0)] []) ≤ MAX_ITEMS :=
  eviction_spec.2.2.2 [] [("a", 0)] (by decide)

/-- C4: one poll tick (`_poll_clipboard`) is a no-op when the clipboard
is unreadable or non-string (`clip = none`) or its text is empty after
trimming: the history, `last_clip` and the emitted event are all
unchanged, and nothing is raised (the model is a total function). -/
theorem capture_empty_noop (paused : Bool) (lastClip : String) (h : List HistEntry)
    (clip : Option String) (now : Int)
    (hempty : ∀ t, clip = some t → pyStrip t = "") :
    pollClipboard paused lastClip h clip now = (lastClip, h, none) := by
  cases clip with
  | none => rfl
  | some t =>
    have ht := hempty t rfl
    simp [pollClipboard, ht]

theorem capture_empty_noop_witness :
    pollClipboard false "x" [] (some "   ") 0 = ("x", [], none) :=
  capture_empty_noop false "x" [] (some "   ") 0 (by intro t ht; cases ht; decide)

/-- C5: capturing a text that is present as a pinned entry (with no
duplicate texts in the history) preserves its pinned flag, refreshes its
timestamp to the capture time, and places it at position 0 of the
history — the front of the pinned block. -/
theorem add_repin (h : List HistEntry) (e : HistEntry) (now : Int)
    (hnd : (texts h).Nodup) (he : e ∈ h) (hp : e.pinned = true) :
    (addToHistory e.text now h).head? = some ⟨e.text, pyCasefold e.text, now, true⟩ := by
  have hfp : (findPop e.text h).1 = true := by
    rw [findPop_pinned e.text h e hnd he rfl, hp]
  rw [addToHistory_eq, hfp, if_pos rfl, trimHistory_eq,
    List.filter_cons_of_pos (by rfl)]
  rfl

theorem add_repin_witness :
    (addToHistory "a" 7 [⟨"a", pyCasefold "a", 0, true⟩]).head?
      = some ⟨"a", pyCasefold "a", 7, true⟩ :=
  add_repin [⟨"a", pyCasefold "a", 0, true⟩] ⟨"a", pyCasefold "a", 0, true⟩ 7
    (by decide) (by decide) rfl

/-- C7: on a poll tick whose trimmed clipboard text is non-empty,
`last_clip` equals that text afterwards — also while paused — and a
capture is emitted exactly when monitoring is active and the text
differs from the previous `last_clip`; in particular nothing is emitted
while paused, and nothing is emitted when `last_clip` already holds the
text (the resume-after-pause situation). -/
theorem poll_last_seen (paused : Bool) (lastClip : String) (h : List HistEntry)
    (t : String) (now : Int) (hne : ¬ pyStrip t = "") :
    (pollClipboard paused lastClip h (some t) now).1 = pyStrip t
    ∧ ((pollClipboard paused lastClip h (some t) now).2.2 = some (pyStrip t)
        ↔ (paused = false ∧ ¬ pyStrip t = lastClip))
    ∧ (pollClipboard true lastClip h (some t) now).2.2 = none
    ∧ (pollClipboard false (pyStrip t) h (some t) now).2.2 = none := by
  refine ⟨?_, ?_, ?_, ?_⟩
  · cases paused with
    | true => simp [pollClipboard, hne]
    | false =>
      by_cases heq : pyStrip t = lastClip
      · simp [pollClipboard, hne, heq]
      · simp [pollClipboard, hne, heq]
  · cases paused with
    | true => simp [pollClipboard, hne]
    | false =>
      by_cases heq : pyStrip t = lastClip
      · simp [pollClipboard, hne, heq]
      · simp [pollClipboard, hne, heq]
  · simp [pollClipboard, hne]
  · simp [pollClipboard, hne]

theorem poll_last_seen_witness :
    (pollClipboard false "" [] (some "a") 0).1 = pyStrip "a"
    ∧ ((pollClipboard false "" [] (some "a") 0).2.2 = some (pyStrip "a")
        ↔ (false = false ∧ ¬ pyStrip "a" = ""))
    ∧ (pollClipboard true "" [] (some "a") 0).2.2 = none
    ∧ (pollClipboard false (pyStrip "a") [] (some "a") 0).2.2 = none :=
  poll_last_seen false "" [] "a" 0 (by decide)

/-- C9: `_validate_search` accepts a proposed query exactly when its
length is at most `MAX_SEARCH_CHARS`; a rejected edit leaves the
existing query unchanged (the Tk validation contract) and a non-empty
warning message signals the condition to the caller, while an accepted
edit replaces the query entirely — never a truncation. -/
theorem search_validation (proposed : String) :
    ((validateSearch proposed).1 = true ↔ proposed.length ≤ MAX_SEARCH_CHARS)
    ∧ ((validateSearch proposed).1 = false →
        (∀ current, applySearchEdit current proposed = current)
          ∧ ¬ (validateSearch proposed).2 = "")
    ∧ (proposed.length ≤ MAX_SEARCH_CHARS →
        ∀ current, applySearchEdit current proposed = proposed) := by
  by_cases hl : proposed.length ≤ MAX_SEARCH_CHARS
  · refine ⟨by simp [validateSearch, hl], ?_, ?_⟩
    · intro hfalse
      rw [validateSearch, if_pos hl] at hfalse
      cases hfalse
    · intro _ current
      rw [applySearchEdit, validateSearch, if_pos hl]
      rfl
  · refine ⟨?_, ?_, ?_⟩
    · rw [validateSearch, if_neg hl]
      simp [hl]
    · intro _
      refine ⟨?_, ?_⟩
      · intro current
        rw [applySearchEdit, validateSearch, if_neg hl]
        rfl
      · rw [validateSearch, if_neg hl]
        decide
    · intro hc
      exact absurd hc hl

set_option maxRecDepth 4000 in
theorem search_validation_witness :
    applySearchEdit "old" (String.mk (List.replicate 201 'a')) = "old" :=
  ((search_validation (String.mk (List.replicate 201 'a'))).2.1 (by decide)).1 "old"

/-- C3 counterexample: when registering the new binding fails and the
rollback registration also fails, the `WM_APP_SET_HOTKEY` handler leaves
no binding registered — neither the new one nor the previous one — so
the replacement is not atomic as claimed. -/
theorem hotkey_replace_cex :
    ¬ ((setHotkeyMsg ⟨some (1, 65), 1, 65, "CtrlA"⟩ (some (2, 66, "AltB")) false false).1.registered
          = some (2, 66)
      ∨ (setHotkeyMsg ⟨some (1, 65), 1, 65, "CtrlA"⟩ (some (2, 66, "AltB")) false false).1.registered
          = some (1, 65)) := by decide

/-- C3 (amended): handling `WM_APP_SET_HOTKEY` for a valid pending
binding either registers the new binding, or re-registers the previous
one by rollback; in the remaining case — both the registration and the
rollback `RegisterHotKey` calls fail — no binding is registered and a
distinct rollback-failure error event is enqueued. -/
theorem hotkey_replace_amended (st : HkState) (nm nv : Nat) (nd : String)
    (hd : ¬ nd = "") (okNew okRollback : Bool) :
    (setHotkeyMsg st (some (nm, nv, nd)) okNew okRollback).1.registered = some (nm, nv)
    ∨ (setHotkeyMsg st (some (nm, nv, nd)) okNew okRollback).1.registered = some (st.mods, st.vk)
    ∨ ((setHotkeyMsg st (some (nm, nv, nd)) okNew okRollback).1.registered = none
        ∧ okNew = false ∧ okRollback = false
        ∧ HkEvent.error "Hotkey registration failed and rollback failed."
            ∈ (setHotkeyMsg st (some (nm, nv, nd)) okNew okRollback).2) := by
  cases okNew with
  | true =>
    left
    simp [setHotkeyMsg, hd]
  | false =>
    cases okRollback with
    | true =>
      right; left
      simp [setHotkeyMsg, hd]
    | false =>
      right; right
      simp [setHotkeyMsg, hd]

theorem hotkey_replace_amended_witness :
    (setHotkeyMsg ⟨some (1, 65), 1, 65, "CtrlA"⟩ (some (2, 66, "AltB")) true true).1.registered
        = some (2, 66)
    ∨ (setHotkeyMsg ⟨some (1, 65), 1, 65, "CtrlA"⟩ (some (2, 66, "AltB")) true true).1.registered
        = some ((⟨some (1, 65), 1, 65, "CtrlA"⟩ : HkState).mods, (⟨some (1, 65), 1, 65, "CtrlA"⟩ : HkState).vk)
    ∨ ((setHotkeyMsg ⟨some (1, 65), 1, 65, "CtrlA"⟩ (some (2, 66, "AltB")) true true).1.registered = none
        ∧ true = false ∧ true = false
        ∧ HkEvent.error "Hotkey registration failed and rollback failed."
            ∈ (setHotkeyMsg ⟨some (1, 65), 1, 65, "CtrlA"⟩ (some (2, 66, "AltB")) true true).2) :=
  hotkey_replace_amended ⟨some (1, 65), 1, 65, "CtrlA"⟩ 2 66 "AltB" (by decide) true true

/-- C6: toggling the pin of an unpinned entry present in the history and
then toggling the resulting pinned entry again leaves an entry with the
same text and the original timestamp as a member of the unpinned block. -/
theorem toggle_pin_involutive (h : List HistEntry) (e : HistEntry)
    (he : e ∈ h) (hp : e.pinned = false) :
    (⟨e.text, pyCasefold e.text, e.ts, false⟩ : HistEntry) ∈
      (togglePinSelected ⟨e.text, pyCasefold e.text, e.ts, true⟩
          (togglePinSelected e h)).filter (fun x => !x.pinned) := by
  have h1 : togglePinSelected e h =
      trimHistory ((⟨e.text, pyCasefold e.text, e.ts, true⟩ : HistEntry) ::
        h.filter (fun x => ¬ x.text = e.text)) := by
    rw [togglePinSelected_eq, hp]
    rfl
  obtain ⟨a, b, hab, ha, hb⟩ := trim_decomp
    ((⟨e.text, pyCasefold e.text, e.ts, true⟩ : HistEntry) ::
      h.filter (fun x => ¬ x.text = e.text))
  rw [h1, hab]
  have h2 : togglePinSelected (⟨e.text, pyCasefold e.text, e.ts, true⟩ : HistEntry) (a ++ b) =
      trimHistory (pyInsert (countPinned ((a ++ b).filter (fun x => ¬ x.text = e.text)))
        (⟨e.text, pyCasefold e.text, e.ts, false⟩ : HistEntry)
        ((a ++ b).filter (fun x => ¬ x.text = e.text))) := rfl
  rw [h2, List.filter_append]
  exact unpin_insert_mem (a.filter (fun x => ¬ x.text = e.text))
    (b.filter (fun x => ¬ x.text = e.text)) _
    (fun x hx => ha x (List.mem_filter.mp hx).1)
    (fun x hx => hb x (List.mem_filter.mp hx).1) rfl

theorem toggle_pin_involutive_witness :
    (⟨"a", pyCasefold "a", 3, false⟩ : HistEntry) ∈
      (togglePinSelected ⟨"a", pyCasefold "a", 3, true⟩
          (togglePinSelected ⟨"a", pyCasefold "a", 3, false⟩
            [⟨"a", pyCasefold "a", 3, false⟩])).filter (fun x => !x.pinned) :=
  toggle_pin_involutive [⟨"a", pyCasefold "a", 3, false⟩] ⟨"a", pyCasefold "a", 3, false⟩
    (by decide) rfl

/-- C8: `_load_history` validates and de-duplicates: loaded texts are
duplicate-free and never empty, the malformed record
`{"text": "", "pinned": true}` is dropped, a legacy plain list of
strings loads as unpinned entries with strictly descending timestamps,
`["x", "y"]` loads with "x" one tick newer than "y", and de-duplication
keeps the first occurrence of each text. -/
theorem load_history_spec :
    (∀ data now, (texts (loadHistory data now)).Nodup)
    ∧ (∀ data now e, e ∈ loadHistory data now → ¬ e.text = "")
    ∧ (∀ now : Int, loadHistory [PElem.dict ⟨some "", none, some true⟩] now = [])
    ∧ (∀ (ss : List String) (now : Int), ∀ e ∈ loadHistory (ss.map PElem.str) now,
        e.pinned = false)
    ∧ (∀ (ss : List String) (now : Int),
        (loadHistory (ss.map PElem.str) now).Pairwise (fun x y => y.ts < x.ts))
    ∧ (∀ now : Int, loadHistory [PElem.str "x", PElem.str "y"] now
        = [⟨"x", "x", now, false⟩, ⟨"y", "y", now - 1, false⟩])
    ∧ (∀ (items : List HistEntry) (t : String), ¬ t = "" →
        (dedupKeepFirst [] items).find? (fun e => e.text == t)
          = items.find? (fun e => e.text == t)) := by
  have heq : ∀ (data : List PElem) (now : Int),
      ∃ items, loadHistory data now = trimHistory (dedupKeepFirst [] items) := by
    intro data now
    cases data with
    | nil => exact ⟨_, rfl⟩
    | cons hd tl =>
      cases hd with
      | dict r => exact ⟨_, rfl⟩
      | str s => exact ⟨_, rfl⟩
      | other => exact ⟨_, rfl⟩
  refine ⟨?_, ?_, ?_, ?_, ?_, ?_, ?_⟩
  · intro data now
    obtain ⟨items, hi⟩ := heq data now
    rw [hi]
    exact nodup_texts_trim (dedup_nodup [] items)
  · intro data now e hmem
    obtain ⟨items, hi⟩ := heq data now
    rw [hi] at hmem
    exact (dedup_not_seen [] items e (trim_subset _ e hmem)).2
  · intro now
    rfl
  · intro ss now e hmem
    rw [loadHistory_legacy] at hmem
    exact parseLegacy_pinned now 0 (ss.map PElem.str) e
      ((dedup_sublist [] _).subset (trim_subset _ e hmem))
  · intro ss now
    rw [loadHistory_legacy]
    have hunp : ∀ e ∈ dedupKeepFirst [] (parseLegacy now 0 (ss.map PElem.str)),
        e.pinned = false := by
      intro e hmem
      exact parseLegacy_pinned now 0 (ss.map PElem.str) e ((dedup_sublist [] _).subset hmem)
    rw [trim_all_unpinned _ hunp]
    exact List.Pairwise.sublist ((List.take_sublist _ _).trans (dedup_sublist [] _))
      (parseLegacy_sorted now 0 (ss.map PElem.str))
  · intro now
    have h0 : loadHistory [PElem.str "x", PElem.str "y"] now
        = [⟨"x", "x", now - 0, false⟩, ⟨"y", "y", now - (0 + 1), false⟩] := rfl
    rw [h0]
    norm_num
  · intro items t ht
    exact dedup_find t items [] ht (by simp)

theorem load_history_spec_witness :
    (dedupKeepFirst [] [⟨"a", "a", 1, false⟩, ⟨"a", "a", 0, true⟩]).find?
        (fun e => e.text == "a")
      = ([⟨"a", "a", 1, false⟩, ⟨"a", "a", 0, true⟩] : List HistEntry).find?
        (fun e => e.text == "a") :=
  load_history_spec.2.2.2.2.2.2 [⟨"a", "a", 1, false⟩, ⟨"a", "a", 0, true⟩] "a" (by decide)

/-- C10: on a pinned-prefix history whose unpinned section is exactly at
`MAX_ITEMS`, unpinning a pinned entry (`toggle_pin_selected`) inserts it
at the front of the unpinned block and evicts the oldest (tail) unpinned
entry — a different, unrelated entry — while the unpinned count stays at
`MAX_ITEMS`. -/
theorem unpin_evicts (a b : List HistEntry) (e ev : HistEntry)
    (hnd : (texts (a ++ b)).Nodup)
    (ha : ∀ x ∈ a, x.pinned = true) (hb : ∀ x ∈ b, x.pinned = false)
    (he : e ∈ a) (hlen : b.length = MAX_ITEMS)
    (hev : b.getLast? = some ev) :
    (⟨e.text, pyCasefold e.text, e.ts, false⟩ : HistEntry) ∈ togglePinSelected e (a ++ b)
    ∧ ¬ ev ∈ togglePinSelected e (a ++ b)
    ∧ unpinnedCount (togglePinSelected e (a ++ b)) = MAX_ITEMS := by
  have hep : e.pinned = true := ha e he
  have hdisj : ∀ x ∈ b, ¬ x.text = e.text := by
    rw [texts_append] at hnd
    have hdis := (List.nodup_append.mp hnd).2.2
    intro x hx hxe
    exact hdis (List.mem_map_of_mem _ he) (hxe ▸ List.mem_map_of_mem (fun y => y.text) hx)
  have hbf : b.filter (fun x => ¬ x.text = e.text) = b :=
    List.filter_eq_self.mpr (by intro x hx; simpa using hdisj x hx)
  have hstep : togglePinSelected e (a ++ b) =
      trimHistory (pyInsert (countPinned ((a ++ b).filter (fun x => ¬ x.text = e.text)))
        (⟨e.text, pyCasefold e.text, e.ts, false⟩ : HistEntry)
        ((a ++ b).filter (fun x => ¬ x.text = e.text))) := by
    rw [togglePinSelected_eq, hep]
    rfl
  have ha2 : ∀ x ∈ a.filter (fun x => ¬ x.text = e.text), x.pinned = true :=
    fun x hx => ha x (List.mem_filter.mp hx).1
  have hins : pyInsert (countPinned (a.filter (fun x => ¬ x.text = e.text) ++ b))
      (⟨e.text, pyCasefold e.text, e.ts, false⟩ : HistEntry)
      (a.filter (fun x => ¬ x.text = e.text) ++ b)
      = a.filter (fun x => ¬ x.text = e.text) ++
        (⟨e.text, pyCasefold e.text, e.ts, false⟩ : HistEntry) :: b := by
    rw [countPinned_partition _ b ha2 hb, pyInsert_append]
  have h50 : MAX_ITEMS = 49 + 1 := rfl
  have hble : b.take 49 = b.dropLast := by
    rw [List.dropLast_eq_take, hlen]
    rfl
  have hresult : togglePinSelected e (a ++ b)
      = a.filter (fun x => ¬ x.text = e.text) ++
        (⟨e.text, pyCasefold e.text, e.ts, false⟩ : HistEntry) :: b.take 49 := by
    rw [hstep, List.filter_append, hbf, hins,
      trim_partition_insert _ b _ ha2 hb rfl, h50, List.take_succ_cons]
  have hevb : ev ∈ b := by
    have hsplit : b.dropLast ++ [ev] = b :=
      List.dropLast_append_getLast? ev (Option.mem_def.mpr hev)
    rw [← hsplit]
    exact List.mem_append_right _ (List.mem_cons_self _ _)
  have hevp : ev.pinned = false := hb ev hevb
  have hevtext : ¬ ev.text = e.text := hdisj ev hevb
  have hbnd : b.Nodup := by
    rw [texts_append] at hnd
    exact List.Nodup.of_map _ ((List.nodup_append.mp hnd).2.1)
  have hevdrop : ¬ ev ∈ b.dropLast := by
    have hsplit : b.dropLast ++ [ev] = b :=
      List.dropLast_append_getLast? ev (Option.mem_def.mpr hev)
    have hnd2 := hbnd
    rw [← hsplit] at hnd2
    intro hmem
    exact (List.nodup_append.mp hnd2).2.2 hmem (List.mem_cons_self _ _)
  refine ⟨?_, ?_, ?_⟩
  · rw [hresult]
    exact List.mem_append_right _ (List.mem_cons_self _ _)
  · rw [hresult]
    intro hmem
    rcases List.mem_append.mp hmem with h1 | h1
    · have := ha2 ev h1
      rw [hevp] at this
      cases this
    · rcases List.mem_cons.mp h1 with h2 | h2
      · exact hevtext (by rw [h2])
      · rw [hble] at h2
        exact hevdrop h2
  · rw [hresult]
    simp only [unpinnedCount]
    rw [List.filter_append,
      List.filter_eq_nil_iff.mpr (by intro x hx; simp [ha2 x hx]),
      List.filter_cons_of_pos (by rfl),
      List.filter_eq_self.mpr (by intro x hx; simp [hb x (List.take_subset _ _ hx)]),
      List.nil_append, List.length_cons, List.length_take, hlen]
    decide

set_option maxRecDepth 8000 in
theorem unpin_evicts_witness :
    (⟨"p", pyCasefold "p", 100, false⟩ : HistEntry)
        ∈ togglePinSelected samplePinned ([samplePinned] ++ sampleUnpinned)
    ∧ ¬ sampleLast ∈ togglePinSelected samplePinned ([samplePinned] ++ sampleUnpinned)
    ∧ unpinnedCount (togglePinSelected samplePinned ([samplePinned] ++ sampleUnpinned))
        = MAX_ITEMS :=
  unpin_evicts [samplePinned] sampleUnpinned samplePinned sampleLast
    (by decide) (by decide) (by decide) (by decide) (by decide) (by decide)

end GoldenCopy
